import Mathlib

/-!
Verification of the compliance decision pipeline of the Compliance-AI-Platform
backend (`backend/app/rule_engine.py`, `backend/app/compliance_checker.py`,
`backend/app/api/routes/super_admin.py`, `backend/app/api/routes/agent.py`).

The Python code is shallowly embedded: SQLAlchemy rows become Lean structures,
the database session becomes an explicit list of rows (in insertion order),
fallible external collaborators (AI reviewer, text generator, the database
fetch inside a try/except) become `Except` values passed in as inputs, and the
pure string algorithms of the rule engine are translated function by function.
Timestamps are modelled as natural numbers (logical clocks).
-/

namespace CompliancePOC

/-- `RuleSeverity` enum from `models/models.py`: HARD = "hard", SOFT = "soft". -/
inductive RuleSeverity where
  | hard
  | soft
deriving DecidableEq, Repr

/-- `.value` of the Python enum member. -/
def RuleSeverity.value : RuleSeverity → String
  | .hard => "hard"
  | .soft => "soft"

/-- `SubmissionStatus` enum from `models/models.py`. -/
inductive SubmissionStatus where
  | pending
  | processing
  | approved
  | rejected
  | failed
deriving DecidableEq, Repr

/-- A row of the `rules` table (`models/models.py`, class `Rule`).
`created_at` is a logical timestamp. -/
structure DBRule where
  id : Nat
  rule_text : String
  severity : RuleSeverity
  is_active : Bool
  version : Nat
  parent_rule_id : Option Nat
  created_by : Nat
  created_at : Nat
deriving DecidableEq, Repr

/-- The violation dictionary produced by `RuleEngine._check_single_rule`:
`{rule_id, rule_text, severity, violated_text, context}` where `severity`
is the string `rule.severity.value`. -/
structure ViolationDict where
  rule_id : Nat
  rule_text : String
  severity : String
  violated_text : String
  context : String
deriving DecidableEq, Repr

/-! ### String machinery mirroring the Python primitives used by the engine -/

/-- Python's substring test `pat in s` on lists of characters:
true iff `pat` occurs contiguously in `s`. -/
def listIsSubstr (pat : List Char) : List Char → Bool
  | [] => pat.isEmpty
  | c :: rest => pat.isPrefixOf (c :: rest) || listIsSubstr pat rest

/-- Python's `pat in s` for strings. -/
def strIn (pat s : String) : Bool := listIsSubstr pat.data s.data

/-- Python's `s.lower()`: lowercase character by character. -/
def strLower (s : String) : String := String.mk (s.data.map Char.toLower)

/-- Python's `s.find(pat)` (index of first occurrence, `none` for -1). -/
def listFindPos (pat : List Char) : List Char → Option Nat
  | [] => if pat.isEmpty then some 0 else none
  | c :: rest =>
      if pat.isPrefixOf (c :: rest) then some 0
      else (listFindPos pat rest).map (· + 1)

/-- Python's `"\n".join(l)` (general separator). -/
def joinSep (sep : String) : List String → String
  | [] => ""
  | [x] => x
  | x :: y :: rest => x ++ sep ++ joinSep sep (y :: rest)

/-- One state step of the scan behind `re.findall(r'"([^"]*)"', text)`:
`acc = none` means we are outside quotes, `acc = some cs` means we are inside
a quoted region with `cs` the (reversed) characters read so far.  An unclosed
trailing quote yields no match, exactly as in `re.findall`. -/
def quotedScan : List Char → Option (List Char) → List (List Char)
  | [], _ => []
  | c :: rest, none =>
      if c = '"' then quotedScan rest (some []) else quotedScan rest none
  | c :: rest, some acc =>
      if c = '"' then acc.reverse :: quotedScan rest none
      else quotedScan rest (some (c :: acc))

/-- `re.findall(r'"([^"]*)"', text)`: the contents of each balanced pair of
double quotes, left to right. -/
def findQuoted (s : String) : List String :=
  (quotedScan s.data none).map (fun l => String.mk l)

/-- Python's `t.strip(chars)`: remove the characters of `cs` from both ends. -/
def stripChars (cs : List Char) (s : String) : String :=
  String.mk (((s.data.dropWhile (fun c => c ∈ cs)).reverse.dropWhile
      (fun c => c ∈ cs)).reverse)

/-- Python's `t.strip()` (no argument): remove whitespace from both ends. -/
def strStrip (s : String) : String :=
  String.mk (((s.data.dropWhile Char.isWhitespace).reverse.dropWhile
      Char.isWhitespace).reverse)

/-- `RuleEngine._extract_prohibited_terms` (`rule_engine.py` 148-165):
quoted terms if any; otherwise, terms from an `"such as ..."` list on the
lowercased text, comma-split and stripped; otherwise no terms. -/
def extractProhibitedTerms (rule_text : String) : List String :=
  let quoted := findQuoted rule_text
  if !quoted.isEmpty then quoted
  else if strIn "such as" (strLower rule_text) then
    let parts := (strLower rule_text).splitOn "such as"
    match parts with
    | _ :: p1 :: _ =>
        (p1.splitOn ",").map (fun t => stripChars ['"', '\''] (strStrip t))
    | _ => []
  else []

/-- `RuleEngine._extract_required_terms` (`rule_engine.py` 167-176):
quoted terms only. -/
def extractRequiredTerms (rule_text : String) : List String :=
  let quoted := findQuoted rule_text
  if !quoted.isEmpty then quoted else []

/-- Python slice `s[start:stop]`. -/
def strSlice (s : String) (start stop : Nat) : String :=
  String.mk ((s.data.drop start).take (stop - start))

/-- `RuleEngine._extract_context` (`rule_engine.py` 178-196): a window of
`context_chars` characters around the first (case-insensitive) occurrence of
`term` in `content`, with ellipses when truncated. -/
def extractContext (content term : String) (context_chars : Nat := 100) : String :=
  match listFindPos (strLower term).data (strLower content).data with
  | none => term
  | some pos =>
      let start := pos - context_chars
      let stop := min content.data.length (pos + term.data.length + context_chars)
      let ctx := strSlice content start stop
      let ctx := if 0 < start then "..." ++ ctx else ctx
      let ctx := if stop < content.data.length then ctx ++ "..." else ctx
      ctx

/-- The prohibition-classification test of `_check_single_rule`
(`rule_engine.py` 120): `"must not" in rule_text_lower or "prohibited" in
rule_text_lower`. -/
def ruleProhibitionWorded (rule_text : String) : Bool :=
  strIn "must not" (strLower rule_text) || strIn "prohibited" (strLower rule_text)

/-- The obligation-classification test of `_check_single_rule`
(`rule_engine.py` 133): `"must include" in rule_text_lower or "required" in
rule_text_lower`. -/
def ruleObligationWorded (rule_text : String) : Bool :=
  strIn "must include" (strLower rule_text) || strIn "required" (strLower rule_text)

/-- `RuleEngine._check_single_rule` (`rule_engine.py` 105-146): classify the
rule by prohibition wording first, then obligation wording; report the first
matching prohibited term, or the first missing required term. -/
def checkSingleRule (content : String) (rule : DBRule) : Option ViolationDict :=
  let contentLower := strLower content
  if ruleProhibitionWorded rule.rule_text then
    match (extractProhibitedTerms rule.rule_text).find?
        (fun term => strIn (strLower term) contentLower) with
    | some term =>
        some { rule_id := rule.id
               rule_text := rule.rule_text
               severity := rule.severity.value
               violated_text := extractContext content term
               context := "Prohibited term '" ++ term ++ "' found in content" }
    | none => none
  else if ruleObligationWorded rule.rule_text then
    match (extractRequiredTerms rule.rule_text).find?
        (fun term => !(strIn (strLower term) contentLower)) with
    | some term =>
        some { rule_id := rule.id
               rule_text := rule.rule_text
               severity := rule.severity.value
               violated_text := ""
               context := "Required term '" ++ term ++ "' missing from content" }
    | none => none
  else none

/-- `RuleEngine.get_active_rules` (`rule_engine.py` 27-38).  The database
query (which can raise) is passed in as an `Except`; on success the active
rows are returned in table order (the query has no `order_by`), on any
exception the empty list is returned. -/
def getActiveRules (fetch : Except String (List DBRule)) : List DBRule :=
  match fetch with
  | .ok rows => rows.filter (fun r => r.is_active)
  | .error _ => []

/-- `RuleEngine.check_violations` (`rule_engine.py` 81-103) applied to an
already-fetched rule list: one pass over the rules, collecting the
per-rule violations in rule order. -/
def checkViolations (rules : List DBRule) (content : String) : List ViolationDict :=
  rules.filterMap (fun rule => checkSingleRule content rule)

/-- `RuleEngine.enforce_hard_rules` (`rule_engine.py` 198-217): reject iff
some violation has severity "hard"; the rejection reason lists each hard
violation as `- rule_text: context`, the approval reason is fixed text. -/
def enforceHardRules (content : String) (violations : List ViolationDict) :
    Bool × String :=
  let hardViolations := violations.filter (fun v => v.severity == "hard")
  if !hardViolations.isEmpty then
    let reasons := hardViolations.map
      (fun v => "- " ++ v.rule_text ++ ": " ++ v.context)
    (false, "Content BLOCKED due to HARD rule violations:\n" ++ joinSep "\n" reasons)
  else
    (true, "No HARD rule violations")

/-- `RuleEngine.annotate_soft_rules` (`rule_engine.py` 219-233). -/
def annotateSoftRules (violations : List ViolationDict) : String :=
  let softViolations := violations.filter (fun v => v.severity == "soft")
  if softViolations.isEmpty then "No SOFT rule violations"
  else
    joinSep "\n"
      ("SOFT RULE VIOLATIONS (Content approved with warnings):" ::
        softViolations.map (fun v => "- " ++ v.rule_text ++ ": " ++ v.context))

/-! ### Compliance orchestrator (`compliance_checker.py`) -/

/-- The advisory AI reviewer's structured opinion (boundary contract of
`reviewer.review_compliance`). -/
structure AIReview where
  violations : List String
  recommendations : String
deriving DecidableEq, Repr

/-- The placeholder opinion substituted by `ComplianceChecker.check_compliance`
when the reviewer call raises (`compliance_checker.py` 65). -/
def fallbackAIReview : AIReview :=
  { violations := [], recommendations := "AI review unavailable" }

/-- The result dictionary of `ComplianceChecker.check_compliance`
(`compliance_checker.py` 87-98), minus the submission id. -/
structure ComplianceResult where
  is_approved : Bool
  compliance_status : String
  decision_reason : String
  rule_violations : List ViolationDict
  ai_review : AIReview
  soft_annotations : String
  total_violations : Nat
  hard_violations : Nat
  soft_violations : Nat
deriving DecidableEq, Repr

/-- `ComplianceChecker.check_compliance` (`compliance_checker.py` 31-105).
The active-rule fetch is assumed successful with rows `activeRules`; the
advisory reviewer call is passed in as an `Except` (it runs inside
try/except, and any exception is replaced by `fallbackAIReview`).  The
decision is computed by the rule engine only. -/
def checkCompliance (activeRules : List DBRule) (aiResult : Except String AIReview)
    (content : String) : ComplianceResult :=
  let ruleViolations := checkViolations activeRules content
  let aiReview := match aiResult with
    | .ok r => r
    | .error _ => fallbackAIReview
  let decision := enforceHardRules content ruleViolations
  { is_approved := decision.1
    compliance_status := if decision.1 then "approved" else "rejected"
    decision_reason := decision.2
    rule_violations := ruleViolations
    ai_review := aiReview
    soft_annotations := annotateSoftRules ruleViolations
    total_violations := ruleViolations.length
    hard_violations := (ruleViolations.filter (fun v => v.severity == "hard")).length
    soft_violations := (ruleViolations.filter (fun v => v.severity == "soft")).length }

/-! ### Agent generation endpoint (`api/routes/agent.py`) -/

/-- Observable outcome of one `/generate` request for a single submission:
the submission's final status, the violation rows persisted for it, and the
HTTP-level result (error detail or generated content). -/
structure AgentOutcome where
  status : SubmissionStatus
  storedViolations : List ViolationDict
  response : Except String String
deriving Repr

/-- Core of `generate_compliant_content` (`agent.py` 23-189).  The submission
is created with status PROCESSING; web search, file parsing, prompt
enhancement and chunking neither touch the submission status nor record
violations, so they are elided; the Gemini call is passed in as an `Except`
(`agent.py` 130-139: on exception the status becomes FAILED and an HTTP 500
with detail "Content generation failed: ..." is raised before any compliance
step runs); on success the compliance check runs and sets the final status
(`compliance_checker.py` 127-148). -/
def generateEndpoint (activeRules : List DBRule) (aiResult : Except String AIReview)
    (genResult : Except String String) : AgentOutcome :=
  match genResult with
  | .error e =>
      { status := .failed
        storedViolations := []
        response := .error ("Content generation failed: " ++ e) }
  | .ok content =>
      let result := checkCompliance activeRules aiResult content
      { status := if result.is_approved then .approved else .rejected
        storedViolations := result.rule_violations
        response := .ok content }

/-! ### Rule store state model (`api/routes/super_admin.py`) -/

/-- The `rules` table plus the id/timestamp generators: rows in insertion
order, the next autoincrement id, and a logical clock for `created_at`. -/
structure RuleStore where
  rows : List DBRule
  nextId : Nat
  clock : Nat
deriving Repr

/-- Outcome of `create_rule` / `force_create_rule` (`super_admin.py`):
HTTP 400 for empty text, HTTP 400 for an exact active duplicate, a
similarity warning without creation, or successful creation. -/
inductive CreateResult where
  | validationError
  | duplicateError
  | similarWarning (hits : List Nat)
  | created (rule : DBRule)
deriving DecidableEq, Repr

/-- `create_rule` (`super_admin.py` 39-137).  The semantic-similarity lookup
is an external Pinecone call; its result is passed in as `similarHits`
(`force_create_rule` is the same endpoint with `similarHits = []`).  Checks
run in source order: empty text, exact active duplicate, similarity warning;
then the rule is inserted active at version 1 with no parent. -/
def createRule (st : RuleStore) (ruleText severityStr : String) (createdBy : Nat)
    (similarHits : List Nat) : CreateResult × RuleStore :=
  if strStrip ruleText = "" then (.validationError, st)
  else if st.rows.any (fun r => r.rule_text == ruleText && r.is_active) then
    (.duplicateError, st)
  else if !similarHits.isEmpty then (.similarWarning similarHits, st)
  else
    let severity := if strLower severityStr == "hard" then RuleSeverity.hard
      else RuleSeverity.soft
    let newRule : DBRule :=
      { id := st.nextId
        rule_text := ruleText
        severity := severity
        is_active := true
        version := 1
        parent_rule_id := none
        created_by := createdBy
        created_at := st.clock }
    (.created newRule,
      { rows := st.rows ++ [newRule], nextId := st.nextId + 1, clock := st.clock + 1 })

/-- Outcome of `update_rule`: HTTP 400 for empty text, HTTP 404 for an
unknown id, or the new version row. -/
inductive UpdateResult where
  | validationError
  | notFound
  | updated (newRule : DBRule)
deriving DecidableEq, Repr

/-- The row rewrite `old_rule.is_active = False` as seen through the
session: deactivate the row whose primary key is `i`, leave others alone
(used by both `update_rule` and `deactivate_rule`). -/
def deactById (i : Nat) (r : DBRule) : DBRule :=
  if r.id == i then { r with is_active := false } else r

/-- `update_rule` (`super_admin.py` 218-295): validate the new text, look up
the old row by id (regardless of its active flag), set it inactive, and
insert a new active row with `version = old.version + 1`,
`parent_rule_id = rule_id` and the old row's severity. -/
def updateRule (st : RuleStore) (ruleId : Nat) (newText : String) (userId : Nat) :
    UpdateResult × RuleStore :=
  if strStrip newText = "" then (.validationError, st)
  else
    match st.rows.find? (fun r => r.id == ruleId) with
    | none => (.notFound, st)
    | some oldRule =>
        let newRule : DBRule :=
          { id := st.nextId
            rule_text := newText
            severity := oldRule.severity
            is_active := true
            version := oldRule.version + 1
            parent_rule_id := some ruleId
            created_by := userId
            created_at := st.clock }
        (.updated newRule,
          { rows := (st.rows.map (deactById ruleId)) ++ [newRule]
            nextId := st.nextId + 1
            clock := st.clock + 1 })

/-- Outcome of `deactivate_rule`: HTTP 404 or success. -/
inductive DeactivateResult where
  | notFound
  | ok
deriving DecidableEq, Repr

/-- `deactivate_rule` (`super_admin.py` 298-345): soft delete by id. -/
def deactivateRule (st : RuleStore) (ruleId : Nat) : DeactivateResult × RuleStore :=
  match st.rows.find? (fun r => r.id == ruleId) with
  | none => (.notFound, st)
  | some _ =>
      (.ok,
        { st with rows := st.rows.map (deactById ruleId) })

/-- The `ORDER BY created_at DESC` relation of `get_all_rules`. -/
def createdDesc (a b : DBRule) : Prop := b.created_at ≤ a.created_at

instance : DecidableRel createdDesc := fun a b => Nat.decLe b.created_at a.created_at

instance : IsTotal DBRule createdDesc :=
  ⟨fun a b => (Nat.le_total b.created_at a.created_at).symm.symm.imp id id⟩

instance : IsTrans DBRule createdDesc :=
  ⟨fun _ _ _ hab hbc => Nat.le_trans hbc hab⟩

/-- `get_all_rules` (`super_admin.py` 348-378): optionally filter to active
rows, then sort by `created_at` descending. -/
def getAllRules (includeInactive : Bool) (rows : List DBRule) : List DBRule :=
  let q := if includeInactive then rows else rows.filter (fun r => r.is_active)
  List.insertionSort createdDesc q

/-- Fuel-bounded walk up the `parent_rule_id` links. -/
def rootIdAux (rows : List DBRule) : Nat → Nat → Nat
  | 0, i => i
  | fuel + 1, i =>
      match rows.find? (fun r => r.id == i) with
      | some r =>
          match r.parent_rule_id with
          | some p => rootIdAux rows fuel p
          | none => i
      | none => i

/-- Root of a rule's version chain: follow `parent_rule_id` links upward.
In a well-formed store every parent id is strictly smaller than its child's
id, so fuel `i` always suffices to reach the chain's root from id `i`. -/
def rootId (rows : List DBRule) (i : Nat) : Nat := rootIdAux rows i i

/-! ### Version-chain invariants (spec §3) -/

/-- Structural well-formedness of the rules table: ids are below the next
autoincrement value, ids are unique, and every parent link points to an
existing, strictly older row. -/
def StoreWF (st : RuleStore) : Prop :=
  (∀ r ∈ st.rows, r.id < st.nextId)
  ∧ (st.rows.map (fun r => r.id)).Nodup
  ∧ (∀ r ∈ st.rows, ∀ p, r.parent_rule_id = some p →
      p < r.id ∧ ∃ q ∈ st.rows, q.id = p)

/-- Version numbers strictly increase along every `parent_rule_id` link. -/
def VersionLink (rows : List DBRule) : Prop :=
  ∀ r ∈ rows, ∀ p, r.parent_rule_id = some p →
    ∀ q ∈ rows, q.id = p → q.version < r.version

/-- Every version chain (identified by its parentless root row) contains
exactly one active rule. -/
def OneActivePerChain (rows : List DBRule) : Prop :=
  ∀ root ∈ rows, root.parent_rule_id = none →
    ∃! s, s ∈ rows ∧ s.is_active = true ∧ rootId rows s.id = root.id

/-- The full invariant of the rule store claimed by spec §3. -/
def StoreInv (st : RuleStore) : Prop :=
  StoreWF st ∧ VersionLink st.rows ∧ OneActivePerChain st.rows

/-- Rule-store operations considered by the chain-invariant claim. -/
inductive StoreOp where
  | create (text severity : String) (createdBy : Nat) (similarHits : List Nat)
  | revise (ruleId : Nat) (newText : String) (userId : Nat)

/-- State reached after one operation (result codes discarded). -/
def applyOp (st : RuleStore) : StoreOp → RuleStore
  | .create t s cb sim => (createRule st t s cb sim).2
  | .revise i t u => (updateRule st i t u).2

/-- Side condition under which an operation is chain-safe: `create` always
is; `revise` is chain-safe when its target (if it exists) is still active. -/
def opOk (st : RuleStore) : StoreOp → Prop
  | .create _ _ _ _ => True
  | .revise i _ _ => ∀ r ∈ st.rows, r.id = i → r.is_active = true

/-- All operations of the sequence are chain-safe at their application
states. -/
def GoodOps : RuleStore → List StoreOp → Prop
  | _, [] => True
  | st, op :: ops => opOk st op ∧ GoodOps (applyOp st op) ops

/-- State reached after a sequence of operations. -/
def applyOps (st : RuleStore) (ops : List StoreOp) : RuleStore :=
  ops.foldl applyOp st

/-! ### Theorems: rule-engine failure handling and determinism -/

/-- C10: if the active-rule fetch raises, `get_active_rules` returns `[]`
without surfacing the error, `check_violations` then reports no violations,
and `enforce_hard_rules` approves with the standard reason — the rule store
fails open to approval. -/
theorem ruleStoreFailure_failsOpen (e content : String) :
    getActiveRules (Except.error e) = []
    ∧ checkViolations (getActiveRules (Except.error e)) content = []
    ∧ enforceHardRules content
        (checkViolations (getActiveRules (Except.error e)) content)
      = (true, "No HARD rule violations") :=
  ⟨rfl, rfl, rfl⟩

/-- C7: when the advisory reviewer call raises, the compliance check still
completes with the placeholder opinion `{violations: [], recommendations:
"AI review unavailable"}`, and the decision (approved flag and reason) is
exactly what the rule engine alone produces on the same content and rules. -/
theorem advisoryFailure_neverBlocks (rules : List DBRule) (e content : String) :
    (checkCompliance rules (Except.error e) content).ai_review = fallbackAIReview
    ∧ ((checkCompliance rules (Except.error e) content).is_approved,
        (checkCompliance rules (Except.error e) content).decision_reason)
      = enforceHardRules content (checkViolations rules content)
    ∧ (checkCompliance rules (Except.error e) content).rule_violations
      = checkViolations rules content :=
  ⟨rfl, rfl, rfl⟩

/-- C8: when the text-generation collaborator fails, the submission ends in
status FAILED, no violations are recorded for it, and no pipeline result is
produced — only the generation error is surfaced. -/
theorem generationFailure_terminal (activeRules : List DBRule)
    (ai : Except String AIReview) (e : String) :
    generateEndpoint activeRules ai (Except.error e)
      = { status := SubmissionStatus.failed
          storedViolations := []
          response := Except.error ("Content generation failed: " ++ e) } :=
  rfl

/-- C2: violation detection and the enforcement decision are deterministic
functions of the content and the active-rule set: two invocations against
rule fetches that yield the same active rules produce identical violation
lists and identical approved/reason pairs. -/
theorem pipelineDeterministic (fetch₁ fetch₂ : Except String (List DBRule))
    (content : String) (h : getActiveRules fetch₁ = getActiveRules fetch₂) :
    checkViolations (getActiveRules fetch₁) content
      = checkViolations (getActiveRules fetch₂) content
    ∧ enforceHardRules content (checkViolations (getActiveRules fetch₁) content)
      = enforceHardRules content (checkViolations (getActiveRules fetch₂) content) := by
  rw [h]
  exact ⟨rfl, rfl⟩

/-- Witness for C2 at a concrete pair of rule fetches with equal active
rules (the second table lacks the inactive row of the first). -/
theorem pipelineDeterministic_witness :
    getActiveRules (Except.ok
        [⟨1, "Words such as profit, success are prohibited", RuleSeverity.hard,
            true, 1, none, 1, 0⟩,
         ⟨2, "retired rule", RuleSeverity.soft, false, 1, none, 1, 1⟩])
      = getActiveRules (Except.ok
        [⟨1, "Words such as profit, success are prohibited", RuleSeverity.hard,
            true, 1, none, 1, 0⟩])
    ∧ (checkViolations (getActiveRules (Except.ok
        [⟨1, "Words such as profit, success are prohibited", RuleSeverity.hard,
            true, 1, none, 1, 0⟩,
         ⟨2, "retired rule", RuleSeverity.soft, false, 1, none, 1, 1⟩]))
        "We promise profit"
      = checkViolations (getActiveRules (Except.ok
        [⟨1, "Words such as profit, success are prohibited", RuleSeverity.hard,
            true, 1, none, 1, 0⟩])) "We promise profit") :=
  ⟨by decide,
   (pipelineDeterministic _ _ "We promise profit" (by decide)).1⟩

/-! ### Theorems: detection on empty input (claim C3) -/

/-- On empty content, a lowered pattern occurs only if it is empty. -/
theorem strIn_strLower_empty {t : String} (h : t ≠ "") :
    strIn (strLower t) (strLower "") = false := by
  show listIsSubstr (strLower t).data (strLower "").data = false
  have hmt : (strLower t).data = t.data.map Char.toLower := rfl
  have hme : (strLower "").data = [] := rfl
  rw [hmt, hme]
  show (t.data.map Char.toLower).isEmpty = false
  cases ht : t.data with
  | nil => exact absurd (String.ext (ht.trans rfl)) h
  | cons c cs => simp

/-- C3 counterexample: on empty input, a rule set containing an obligation
rule with a quoted required term yields one violation, not zero. -/
theorem emptyInput_obligation_counterexample :
    checkViolations
        [⟨1, "Content must include \"disclaimer\"", RuleSeverity.hard, true, 1,
            none, 1, 0⟩] ""
      = [⟨1, "Content must include \"disclaimer\"", "hard", "",
          "Required term 'disclaimer' missing from content"⟩]
    ∧ checkViolations
        [⟨1, "Content must include \"disclaimer\"", RuleSeverity.hard, true, 1,
            none, 1, 0⟩] ""
      ≠ ([] : List ViolationDict) := by
  constructor
  · rfl
  · decide

/-- C3 amended: violation detection on empty input yields zero violations
provided no prohibition-classified rule extracts an empty prohibited term
and no obligation-classified rule extracts any required term. (The detector
is a total function, so no input raises an error.) -/
theorem checkViolations_empty_input (rules : List DBRule)
    (h : ∀ r ∈ rules,
        (ruleProhibitionWorded r.rule_text = true →
          ∀ t ∈ extractProhibitedTerms r.rule_text, t ≠ "")
        ∧ (ruleProhibitionWorded r.rule_text = false →
          ruleObligationWorded r.rule_text = true →
          extractRequiredTerms r.rule_text = [])) :
    checkViolations rules "" = [] := by
  unfold checkViolations
  rw [List.filterMap_eq_nil_iff]
  intro r hr
  obtain ⟨h1, h2⟩ := h r hr
  unfold checkSingleRule
  cases hp : ruleProhibitionWorded r.rule_text with
  | true =>
      have hfind : (extractProhibitedTerms r.rule_text).find?
          (fun term => strIn (strLower term) (strLower "")) = none := by
        rw [List.find?_eq_none]
        intro t ht
        simp [strIn_strLower_empty (h1 hp t ht)]
      simp only [hp, if_true, hfind]
  | false =>
      cases ho : ruleObligationWorded r.rule_text with
      | true => simp [hp, ho, h2 hp ho]
      | false => simp [hp, ho]

/-- Witness for the amended C3 at a concrete prohibition rule whose terms
come from a "such as" list (all nonempty): empty input yields no violation. -/
theorem checkViolations_empty_input_witness :
    (∀ r ∈ [(⟨1, "Never promise outcomes such as profit, success",
          RuleSeverity.hard, true, 1, none, 1, 0⟩ : DBRule)],
        (ruleProhibitionWorded r.rule_text = true →
          ∀ t ∈ extractProhibitedTerms r.rule_text, t ≠ "")
        ∧ (ruleProhibitionWorded r.rule_text = false →
          ruleObligationWorded r.rule_text = true →
          extractRequiredTerms r.rule_text = []))
    ∧ checkViolations
        [⟨1, "Never promise outcomes such as profit, success",
            RuleSeverity.hard, true, 1, none, 1, 0⟩] "" = [] :=
  ⟨by decide,
   checkViolations_empty_input _ (by decide)⟩

/-! ### Theorems: the enforcement decision (claim C1) -/

/-- An infix of `y` is an infix of `l ++ y`. -/
theorem infix_extend_left (l : List Char) {x y : List Char} (h : x <:+: y) :
    x <:+: l ++ y := by
  obtain ⟨s, t, rfl⟩ := h
  exact ⟨l ++ s, t, by simp⟩

/-- Every member of a joined list is an infix of the joined string. -/
theorem joinSep_infix (sep : String) {x : String} :
    ∀ {l : List String}, x ∈ l → x.data <:+: (joinSep sep l).data := by
  intro l
  induction l with
  | nil => intro h; cases h
  | cons a tail ih =>
      intro h
      cases tail with
      | nil =>
          have hx : x = a := by simpa using h
          subst hx
          exact List.infix_refl _
      | cons b t2 =>
          have hunfold : joinSep sep (a :: b :: t2)
              = a ++ sep ++ joinSep sep (b :: t2) := rfl
          rcases List.mem_cons.mp h with h1 | h1
          · subst h1
            rw [hunfold]
            exact ⟨[], sep.data ++ (joinSep sep (b :: t2)).data,
              by simp [String.data_append, List.append_assoc]⟩
          · obtain ⟨s, t, hst⟩ := ih h1
            rw [hunfold]
            exact ⟨(a ++ sep).data ++ s, t,
              by simp [String.data_append, List.append_assoc, hst]⟩

/-- The rule text is quoted inside its rendered violation line. -/
theorem fmtLine_infix_rule_text (v : ViolationDict) :
    v.rule_text.data <:+: ("- " ++ v.rule_text ++ ": " ++ v.context).data :=
  ⟨"- ".data, ": ".data ++ v.context.data,
    by simp [String.data_append, List.append_assoc]⟩

/-- The context is quoted inside its rendered violation line. -/
theorem fmtLine_infix_context (v : ViolationDict) :
    v.context.data <:+: ("- " ++ v.rule_text ++ ": " ++ v.context).data :=
  ⟨("- " ++ v.rule_text ++ ": ").data, [],
    by simp [String.data_append, List.append_assoc]⟩

/-- C1: `enforce_hard_rules` rejects iff some violation has severity
"hard"; when rejecting, the reason quotes every hard violation's rule text
and context; when approving, the reason is exactly "No HARD rule
violations"; and the whole result is a function of the hard violations
alone, so soft violations never affect the approved flag. -/
theorem enforceHardRules_spec (content : String) (vs : List ViolationDict) :
    ((enforceHardRules content vs).1 = false ↔ ∃ v ∈ vs, v.severity = "hard")
    ∧ (∀ v ∈ vs, v.severity = "hard" →
        v.rule_text.data <:+: (enforceHardRules content vs).2.data
        ∧ v.context.data <:+: (enforceHardRules content vs).2.data)
    ∧ ((¬ ∃ v ∈ vs, v.severity = "hard") →
        enforceHardRules content vs = (true, "No HARD rule violations"))
    ∧ enforceHardRules content vs
      = enforceHardRules content (vs.filter (fun v => v.severity == "hard")) := by
  have hmem : ∀ v : ViolationDict,
      v ∈ vs.filter (fun v => v.severity == "hard")
        ↔ v ∈ vs ∧ v.severity = "hard" := by
    intro v
    simp [List.mem_filter]
  have hfilter : enforceHardRules content vs
      = enforceHardRules content (vs.filter (fun v => v.severity == "hard")) := by
    simp only [enforceHardRules, List.filter_filter, Bool.and_self]
  cases hfil : vs.filter (fun v => v.severity == "hard") with
  | nil =>
      have hnoex : ¬ ∃ v ∈ vs, v.severity = "hard" := by
        rintro ⟨v, hv, hsev⟩
        have : v ∈ vs.filter (fun v => v.severity == "hard") :=
          (hmem v).mpr ⟨hv, hsev⟩
        rw [hfil] at this
        cases this
      have hres : enforceHardRules content vs = (true, "No HARD rule violations") := by
        simp only [enforceHardRules, hfil]
        rfl
      refine ⟨?_, ?_, fun _ => hres, hfil ▸ hfilter⟩
      · rw [hres]
        exact Iff.intro (fun h => nomatch h) (fun h => absurd h hnoex)
      · intro v hv hsev
        exact absurd ⟨v, hv, hsev⟩ hnoex
  | cons a t =>
      have hres : enforceHardRules content vs
          = (false, "Content BLOCKED due to HARD rule violations:\n"
              ++ joinSep "\n" ((a :: t).map
                  (fun v => "- " ++ v.rule_text ++ ": " ++ v.context))) := by
        simp only [enforceHardRules, hfil]
        rfl
      have hex : ∃ v ∈ vs, v.severity = "hard" := by
        have ha : a ∈ vs.filter (fun v => v.severity == "hard") := by
          rw [hfil]; exact List.mem_cons_self a t
        obtain ⟨h1, h2⟩ := (hmem a).mp ha
        exact ⟨a, h1, h2⟩
      refine ⟨?_, ?_, fun h => absurd hex h, hfil ▸ hfilter⟩
      · rw [hres]
        exact ⟨fun _ => hex, fun _ => rfl⟩
      · intro v hv hsev
        have hvf : v ∈ (a :: t) := by
          rw [← hfil]
          exact (hmem v).mpr ⟨hv, hsev⟩
        have hline : ("- " ++ v.rule_text ++ ": " ++ v.context)
            ∈ (a :: t).map (fun v => "- " ++ v.rule_text ++ ": " ++ v.context) :=
          List.mem_map_of_mem _ hvf
        have hjoin := joinSep_infix "\n" hline
        rw [hres]
        exact ⟨infix_extend_left _ ((fmtLine_infix_rule_text v).trans hjoin),
          infix_extend_left _ ((fmtLine_infix_context v).trans hjoin)⟩

/-- Witness for C1: a single hard violation at a concrete input rejects,
and its rule text is quoted in the reason. -/
theorem enforceHardRules_spec_witness :
    (enforceHardRules "some content" [⟨1, "no promises", "hard", "", "ctx"⟩]).1 = false
    ∧ "no promises".data
        <:+: (enforceHardRules "some content"
          [⟨1, "no promises", "hard", "", "ctx"⟩]).2.data :=
  by
  have h := enforceHardRules_spec "some content"
    [⟨1, "no promises", "hard", "", "ctx"⟩]
  exact ⟨h.1.mpr ⟨⟨1, "no promises", "hard", "", "ctx"⟩, List.mem_cons_self _ _, rfl⟩,
    (h.2.1 ⟨1, "no promises", "hard", "", "ctx"⟩ (List.mem_cons_self _ _) rfl).1⟩

/-! ### Theorems: rule revision and creation (claims C5, C6) -/

/-- C5: revising an existing rule with non-empty text yields a new row with
`version = old.version + 1`, `parent_rule_id = old id`, the old severity,
and active; the old row is now stored deactivated (so of the two rows
exactly the new one is active). -/
theorem updateRule_spec (st : RuleStore) (ruleId userId : Nat) (newText : String)
    (old : DBRule)
    (hfind : st.rows.find? (fun r => r.id == ruleId) = some old)
    (hne : ¬ strStrip newText = "") :
    ∃ nr : DBRule,
      (updateRule st ruleId newText userId).1 = UpdateResult.updated nr
      ∧ nr.version = old.version + 1
      ∧ nr.parent_rule_id = some ruleId
      ∧ nr.severity = old.severity
      ∧ nr.is_active = true
      ∧ nr.rule_text = newText
      ∧ nr ∈ (updateRule st ruleId newText userId).2.rows
      ∧ ({ old with is_active := false } : DBRule)
          ∈ (updateRule st ruleId newText userId).2.rows
      ∧ ({ old with is_active := false } : DBRule).is_active = false := by
  have hpred := List.find?_some hfind
  have hmemold : old ∈ st.rows := List.mem_of_find?_eq_some hfind
  have hrows : (updateRule st ruleId newText userId)
      = (UpdateResult.updated
          { id := st.nextId, rule_text := newText, severity := old.severity,
            is_active := true, version := old.version + 1,
            parent_rule_id := some ruleId, created_by := userId,
            created_at := st.clock },
        { rows := (st.rows.map (deactById ruleId))
            ++ [{ id := st.nextId, rule_text := newText, severity := old.severity,
                  is_active := true, version := old.version + 1,
                  parent_rule_id := some ruleId, created_by := userId,
                  created_at := st.clock }]
          nextId := st.nextId + 1
          clock := st.clock + 1 }) := by
    unfold updateRule
    rw [if_neg hne, hfind]
  refine ⟨⟨st.nextId, newText, old.severity, true, old.version + 1,
      some ruleId, userId, st.clock⟩,
    by rw [hrows], rfl, rfl, rfl, rfl, rfl, ?_, ?_, rfl⟩
  · rw [hrows]
    exact List.mem_append_right _ (List.mem_cons_self _ _)
  · rw [hrows]
    refine List.mem_append_left _ ?_
    have : deactById ruleId old = { old with is_active := false } := by
      simp [deactById, hpred]
    rw [← this]
    exact List.mem_map_of_mem _ hmemold

/-- Witness for C5 at a one-rule store. -/
theorem updateRule_spec_witness :
    ([(⟨1, "old text is prohibited", RuleSeverity.hard, true, 1, none, 7, 0⟩ : DBRule)].find?
        (fun r => r.id == 1)
      = some (⟨1, "old text is prohibited", RuleSeverity.hard, true, 1, none, 7, 0⟩ : DBRule))
    ∧ ¬ strStrip "new text is prohibited" = ""
    ∧ ∃ nr : DBRule,
        (updateRule ⟨[⟨1, "old text is prohibited", RuleSeverity.hard, true, 1, none, 7, 0⟩], 2, 3⟩
            1 "new text is prohibited" 7).1 = UpdateResult.updated nr
        ∧ nr.version = 2
        ∧ nr.parent_rule_id = some 1
        ∧ nr.severity = RuleSeverity.hard
        ∧ nr.is_active = true := by
  refine ⟨by decide, by decide, ?_⟩
  obtain ⟨nr, h1, h2, h3, h4, h5, _⟩ :=
    updateRule_spec
      ⟨[⟨1, "old text is prohibited", RuleSeverity.hard, true, 1, none, 7, 0⟩], 2, 3⟩
      1 7 "new text is prohibited"
      ⟨1, "old text is prohibited", RuleSeverity.hard, true, 1, none, 7, 0⟩
      (by decide) (by decide)
  exact ⟨nr, h1, h2, h3, h4, h5⟩

/-- C6: creating a rule whose text equals an existing active rule's text
fails with the duplicate error and leaves the store unchanged, for any
similarity-lookup result; after deactivating that rule (assuming it was the
only active rule with this text), creating the same text succeeds (with the
similarity lookup returning no hits). -/
theorem createRule_duplicate_spec (st : RuleStore) (text sev : String) (cb i : Nat)
    (sim : List Nat)
    (hval : ¬ strStrip text = "")
    (hdup : ∃ r ∈ st.rows, r.rule_text = text ∧ r.is_active = true)
    (huniq : ∀ r ∈ st.rows, r.rule_text = text → r.is_active = true → r.id = i) :
    (createRule st text sev cb sim).1 = CreateResult.duplicateError
    ∧ (createRule st text sev cb sim).2 = st
    ∧ ∃ nr : DBRule,
        (createRule (deactivateRule st i).2 text sev cb []).1 = CreateResult.created nr
        ∧ nr.rule_text = text ∧ nr.is_active = true ∧ nr.version = 1
        ∧ nr.parent_rule_id = none := by
  obtain ⟨r0, hr0, hrt, hact⟩ := hdup
  have hany : st.rows.any (fun r => r.rule_text == text && r.is_active) = true :=
    List.any_eq_true.mpr ⟨r0, hr0, by simp [hrt, hact]⟩
  have hdupres : createRule st text sev cb sim = (CreateResult.duplicateError, st) := by
    unfold createRule
    rw [if_neg hval, if_pos hany]
  refine ⟨by rw [hdupres], by rw [hdupres], ?_⟩
  have hfound : ∃ w, st.rows.find? (fun r => r.id == i) = some w := by
    have : (st.rows.find? (fun r => r.id == i)).isSome = true :=
      List.find?_isSome.mpr ⟨r0, hr0, by simp [huniq r0 hr0 hrt hact]⟩
    exact Option.isSome_iff_exists.mp this
  obtain ⟨w, hw⟩ := hfound
  have hrows' : (deactivateRule st i).2.rows = st.rows.map (deactById i) := by
    unfold deactivateRule
    rw [hw]
  have hany' : (deactivateRule st i).2.rows.any
      (fun r => r.rule_text == text && r.is_active) = false := by
    rw [hrows']
    rw [List.any_eq_false]
    intro x hx
    obtain ⟨r, hr, hfr⟩ := List.mem_map.mp hx
    rw [deactById] at hfr
    by_cases hri : (r.id == i) = true
    · rw [if_pos hri] at hfr
      subst hfr
      simp
    · rw [if_neg hri] at hfr
      subst hfr
      intro hcontra
      have h1 : r.rule_text = text := by
        have := (Bool.and_eq_true _ _).mp hcontra
        exact eq_of_beq this.1
      have h2 : r.is_active = true := ((Bool.and_eq_true _ _).mp hcontra).2
      exact hri (by simp [huniq r hr h1 h2])
  have hcreate : (createRule (deactivateRule st i).2 text sev cb []).1
      = CreateResult.created
        ⟨(deactivateRule st i).2.nextId, text,
          (if strLower sev == "hard" then RuleSeverity.hard else RuleSeverity.soft),
          true, 1, none, cb, (deactivateRule st i).2.clock⟩ := by
    unfold createRule
    rw [if_neg hval, if_neg (by simp [hany']), if_neg (by decide)]
  exact ⟨_, hcreate, rfl, rfl, rfl, rfl⟩

/-- Witness for C6 at a one-rule store: duplicate creation fails (for a
nonempty similarity result, showing the exact check fires first), and after
deactivation the same text is created. -/
theorem createRule_duplicate_spec_witness :
    (¬ strStrip "No guarantees of profit" = "")
    ∧ (createRule
        ⟨[⟨1, "No guarantees of profit", RuleSeverity.hard, true, 1, none, 1, 0⟩], 2, 1⟩
        "No guarantees of profit" "hard" 2 [9]).1 = CreateResult.duplicateError
    ∧ ∃ nr : DBRule,
        (createRule
          (deactivateRule
            ⟨[⟨1, "No guarantees of profit", RuleSeverity.hard, true, 1, none, 1, 0⟩], 2, 1⟩
            1).2
          "No guarantees of profit" "hard" 2 []).1 = CreateResult.created nr := by
  have h := createRule_duplicate_spec
    ⟨[⟨1, "No guarantees of profit", RuleSeverity.hard, true, 1, none, 1, 0⟩], 2, 1⟩
    "No guarantees of profit" "hard" 2 1 [9]
    (by decide) (by decide) (by decide)
  exact ⟨by decide, h.1, h.2.2.elim (fun nr hnr => ⟨nr, hnr.1⟩)⟩

/-! ### Theorems: listing active rules (claim C9, corrected) -/

/-- C9 amended: both listings return exactly the rules with `active=true`;
the super-admin listing endpoint additionally sorts them newest-created
first, while `RuleEngine.get_active_rules` returns them in table order. -/
theorem listActiveRules_spec (rows : List DBRule) :
    (∀ r : DBRule, r ∈ getActiveRules (Except.ok rows) ↔ r ∈ rows ∧ r.is_active = true)
    ∧ (getAllRules false rows).Perm (rows.filter (fun r => r.is_active))
    ∧ (getAllRules false rows).Sorted createdDesc
    ∧ (∀ r : DBRule, r ∈ getAllRules false rows ↔ r ∈ rows ∧ r.is_active = true) := by
  have hperm : (getAllRules false rows).Perm (rows.filter (fun r => r.is_active)) :=
    List.perm_insertionSort _ _
  refine ⟨?_, hperm, List.sorted_insertionSort _ _, ?_⟩
  · intro r
    simp [getActiveRules, List.mem_filter]
  · intro r
    rw [hperm.mem_iff]
    simp [List.mem_filter]

/-- C9 counterexample: with two active rules inserted oldest-first,
`RuleEngine.get_active_rules` returns them in table order, which is not
descending `created_at` (while `get_all_rules` does sort them). -/
theorem getActiveRules_unsorted_counterexample :
    getActiveRules (Except.ok
        [⟨1, "a", RuleSeverity.hard, true, 1, none, 1, 0⟩,
         ⟨2, "b", RuleSeverity.soft, true, 1, none, 1, 5⟩])
      = [⟨1, "a", RuleSeverity.hard, true, 1, none, 1, 0⟩,
         ⟨2, "b", RuleSeverity.soft, true, 1, none, 1, 5⟩]
    ∧ ¬ (getActiveRules (Except.ok
        [⟨1, "a", RuleSeverity.hard, true, 1, none, 1, 0⟩,
         ⟨2, "b", RuleSeverity.soft, true, 1, none, 1, 5⟩])).Sorted createdDesc
    ∧ getAllRules false
        [⟨1, "a", RuleSeverity.hard, true, 1, none, 1, 0⟩,
         ⟨2, "b", RuleSeverity.soft, true, 1, none, 1, 5⟩]
      = [⟨2, "b", RuleSeverity.soft, true, 1, none, 1, 5⟩,
         ⟨1, "a", RuleSeverity.hard, true, 1, none, 1, 0⟩] := by
  refine ⟨rfl, ?_, by decide⟩
  intro hs
  have h1 := (List.sorted_cons.mp hs).1 _ (List.mem_cons_self _ _)
  exact absurd h1 (by decide)

/-! ### Theorems: version-chain invariant (claim C4, corrected) -/

/-- Abbreviation: every parent link points strictly downward in id. -/
def ParentLt (rows : List DBRule) : Prop :=
  ∀ r ∈ rows, ∀ p, r.parent_rule_id = some p → p < r.id

/-- Abbreviation: every parent link points to an existing strictly older
row. -/
def ParentOk (rows : List DBRule) : Prop :=
  ∀ r ∈ rows, ∀ p, r.parent_rule_id = some p → p < r.id ∧ ∃ q ∈ rows, q.id = p

theorem ParentOk.lt {rows : List DBRule} (h : ParentOk rows) : ParentLt rows :=
  fun r hr p hp => (h r hr p hp).1

/-- With downward parent links, id 0 is always its own root. -/
theorem rootIdAux_zero {rows : List DBRule} (hlt : ParentLt rows) (fuel : Nat) :
    rootIdAux rows fuel 0 = 0 := by
  cases fuel with
  | zero => rfl
  | succ f =>
      cases hf : rows.find? (fun r => r.id == 0) with
      | none => simp [rootIdAux, hf]
      | some r =>
          have hid : r.id = 0 := by
            have := List.find?_some hf
            simpa using this
          cases hp : r.parent_rule_id with
          | none => simp [rootIdAux, hf, hp]
          | some p =>
              have := hlt r (List.mem_of_find?_eq_some hf) p hp
              rw [hid] at this
              exact absurd this (Nat.not_lt_zero p)

/-- With downward parent links, any fuel of at least `i` computes the same
root from `i`. -/
theorem rootIdAux_fuel {rows : List DBRule} (hlt : ParentLt rows) :
    ∀ fuel₁ fuel₂ i, i ≤ fuel₁ → i ≤ fuel₂ →
      rootIdAux rows fuel₁ i = rootIdAux rows fuel₂ i := by
  intro fuel₁
  induction fuel₁ with
  | zero =>
      intro fuel₂ i h1 _
      have hi : i = 0 := Nat.le_zero.mp h1
      subst hi
      rw [rootIdAux_zero hlt, rootIdAux_zero hlt]
  | succ f₁ ih =>
      intro fuel₂ i h1 h2
      cases fuel₂ with
      | zero =>
          have hi : i = 0 := Nat.le_zero.mp h2
          subst hi
          rw [rootIdAux_zero hlt, rootIdAux_zero hlt]
      | succ f₂ =>
          cases hf : rows.find? (fun r => r.id == i) with
          | none => simp [rootIdAux, hf]
          | some r =>
              cases hp : r.parent_rule_id with
              | none => simp [rootIdAux, hf, hp]
              | some p =>
                  have hid : r.id = i := by
                    have := List.find?_some hf
                    simpa using this
                  have hpi : p < i := by
                    have := hlt r (List.mem_of_find?_eq_some hf) p hp
                    rwa [hid] at this
                  simp only [rootIdAux, hf, hp]
                  exact ih f₂ p (Nat.le_of_lt_succ (Nat.lt_of_lt_of_le hpi h1))
                    (Nat.le_of_lt_succ (Nat.lt_of_lt_of_le hpi h2))

/-- `rootIdAux` only looks at ids and parent links, so a map preserving both
leaves it unchanged. -/
theorem rootIdAux_map {rows : List DBRule} {f : DBRule → DBRule}
    (hid : ∀ r, (f r).id = r.id)
    (hpar : ∀ r, (f r).parent_rule_id = r.parent_rule_id) :
    ∀ fuel i, rootIdAux (rows.map f) fuel i = rootIdAux rows fuel i := by
  intro fuel
  induction fuel with
  | zero => intro i; rfl
  | succ f' ih =>
      intro i
      have hcomp : ((fun r : DBRule => r.id == i) ∘ f)
          = (fun r : DBRule => r.id == i) := by
        funext r
        simp [hid r]
      cases hf : rows.find? (fun r => r.id == i) with
      | none =>
          have hmf : (rows.map f).find? (fun r => r.id == i) = none := by
            rw [List.find?_map, hcomp, hf]
            rfl
          simp [rootIdAux, hf, hmf]
      | some r =>
          have hmf : (rows.map f).find? (fun r => r.id == i) = some (f r) := by
            rw [List.find?_map, hcomp, hf]
            rfl
          cases hp : r.parent_rule_id with
          | none => simp [rootIdAux, hf, hmf, hpar r, hp]
          | some p =>
              simp only [rootIdAux, hf, hmf, hpar r, hp]
              exact ih p

/-- Appending a row with a fresh id does not change the root of any id
other than the new one, provided no old row or link mentions the new id. -/
theorem rootIdAux_append {rows : List DBRule} {nr : DBRule}
    (hfresh : ∀ r ∈ rows, r.id ≠ nr.id)
    (hpar : ∀ r ∈ rows, ∀ p, r.parent_rule_id = some p → p ≠ nr.id) :
    ∀ fuel i, i ≠ nr.id →
      rootIdAux (rows ++ [nr]) fuel i = rootIdAux rows fuel i := by
  intro fuel
  induction fuel with
  | zero => intro i _; rfl
  | succ f' ih =>
      intro i hi
      have hsingle : List.find? (fun r : DBRule => r.id == i) [nr] = none := by
        rw [List.find?_cons_of_neg _ (by simp; exact fun h => hi h.symm)]
        exact List.find?_nil
      cases hf : rows.find? (fun r => r.id == i) with
      | none =>
          have happ : (rows ++ [nr]).find? (fun r => r.id == i) = none := by
            rw [List.find?_append, hf, hsingle]
            rfl
          simp [rootIdAux, hf, happ]
      | some r =>
          have happ : (rows ++ [nr]).find? (fun r => r.id == i) = some r := by
            rw [List.find?_append, hf]
            exact Option.or_some
          cases hp : r.parent_rule_id with
          | none => simp [rootIdAux, hf, happ, hp]
          | some p =>
              simp only [rootIdAux, hf, happ, hp]
              exact ih p (hpar r (List.mem_of_find?_eq_some hf) p hp)

/-- Every id present in a parent-closed table reaches a parentless member
row as its root. -/
theorem rootIdAux_root_mem {rows : List DBRule} (hok : ParentOk rows) :
    ∀ fuel i, i ≤ fuel → (∃ r ∈ rows, r.id = i) →
      ∃ root ∈ rows, root.id = rootIdAux rows fuel i
        ∧ root.parent_rule_id = none := by
  intro fuel
  induction fuel with
  | zero =>
      intro i hle hex
      have hi : i = 0 := Nat.le_zero.mp hle
      subst hi
      obtain ⟨r, hr, hid⟩ := hex
      cases hp : r.parent_rule_id with
      | some p =>
          have := (hok r hr p hp).1
          rw [hid] at this
          exact absurd this (Nat.not_lt_zero p)
      | none => exact ⟨r, hr, hid, hp⟩
  | succ f ih =>
      intro i hle hex
      obtain ⟨r, hr, hid⟩ := hex
      have hsome : (rows.find? (fun r => r.id == i)).isSome = true :=
        List.find?_isSome.mpr ⟨r, hr, by simp [hid]⟩
      obtain ⟨r', hf⟩ := Option.isSome_iff_exists.mp hsome
      have hr' : r' ∈ rows := List.mem_of_find?_eq_some hf
      have hid' : r'.id = i := by
        have := List.find?_some hf
        simpa using this
      cases hp : r'.parent_rule_id with
      | none =>
          refine ⟨r', hr', ?_, hp⟩
          simp [rootIdAux, hf, hp, hid']
      | some p =>
          obtain ⟨hplt, q, hq, hqid⟩ := hok r' hr' p hp
          rw [hid'] at hplt
          have hrec := ih p (Nat.le_of_lt_succ (Nat.lt_of_lt_of_le hplt hle))
            ⟨q, hq, hqid⟩
          simpa [rootIdAux, hf, hp] using hrec

/-- `rootId` for a member id lands on a parentless member row. -/
theorem rootId_root_mem {rows : List DBRule} (hok : ParentOk rows)
    {s : DBRule} (hs : s ∈ rows) :
    ∃ root ∈ rows, root.id = rootId rows s.id
      ∧ root.parent_rule_id = none :=
  rootIdAux_root_mem hok s.id s.id (Nat.le_refl _) ⟨s, hs, rfl⟩

/-- Roots are unchanged by an update-style rewrite of the table (an id- and
parent-preserving map followed by appending a fresh-id row), for every id
other than the new row's. -/
theorem rootId_update_old {rows : List DBRule} {f : DBRule → DBRule} {nr : DBRule}
    (hidf : ∀ r, (f r).id = r.id)
    (hparf : ∀ r, (f r).parent_rule_id = r.parent_rule_id)
    (hok : ParentOk rows) (hids : ∀ r ∈ rows, r.id < nr.id)
    (i : Nat) (hi : i ≠ nr.id) :
    rootId ((rows.map f) ++ [nr]) i = rootId rows i := by
  have hfresh : ∀ r ∈ rows.map f, r.id ≠ nr.id := by
    intro x hx
    obtain ⟨r₀, hr₀, rfl⟩ := List.mem_map.mp hx
    rw [hidf r₀]
    exact Nat.ne_of_lt (hids r₀ hr₀)
  have hpar : ∀ r ∈ rows.map f, ∀ p, r.parent_rule_id = some p → p ≠ nr.id := by
    intro x hx p hp
    obtain ⟨r₀, hr₀, rfl⟩ := List.mem_map.mp hx
    rw [hparf r₀] at hp
    obtain ⟨_, q, hq, hqid⟩ := hok r₀ hr₀ p hp
    rw [← hqid]
    exact Nat.ne_of_lt (hids q hq)
  rw [rootId, rootId, rootIdAux_append hfresh hpar i i hi,
    rootIdAux_map hidf hparf i i]

/-- The new row of an update-style rewrite roots wherever its parent (the
revised rule's id) rooted in the old table. -/
theorem rootId_update_new {rows : List DBRule} {f : DBRule → DBRule}
    {nr : DBRule} {i₀ : Nat}
    (hidf : ∀ r, (f r).id = r.id)
    (hparf : ∀ r, (f r).parent_rule_id = r.parent_rule_id)
    (hok : ParentOk rows) (hids : ∀ r ∈ rows, r.id < nr.id)
    (hnrpar : nr.parent_rule_id = some i₀) (hi₀ : i₀ < nr.id) :
    rootId ((rows.map f) ++ [nr]) nr.id = rootId rows i₀ := by
  have hfindmap : (rows.map f).find? (fun r => r.id == nr.id) = none := by
    rw [List.find?_eq_none]
    intro x hx
    obtain ⟨r₀, hr₀, rfl⟩ := List.mem_map.mp hx
    simp [hidf r₀]
    exact Nat.ne_of_lt (hids r₀ hr₀)
  have happ : ((rows.map f) ++ [nr]).find? (fun r => r.id == nr.id) = some nr := by
    rw [List.find?_append, hfindmap]
    simp [List.find?]
  have hfresh : ∀ r ∈ rows.map f, r.id ≠ nr.id := by
    intro x hx
    obtain ⟨r₀, hr₀, rfl⟩ := List.mem_map.mp hx
    rw [hidf r₀]
    exact Nat.ne_of_lt (hids r₀ hr₀)
  have hpar : ∀ r ∈ rows.map f, ∀ p, r.parent_rule_id = some p → p ≠ nr.id := by
    intro x hx p hp
    obtain ⟨r₀, hr₀, rfl⟩ := List.mem_map.mp hx
    rw [hparf r₀] at hp
    obtain ⟨_, q, hq, hqid⟩ := hok r₀ hr₀ p hp
    rw [← hqid]
    exact Nat.ne_of_lt (hids q hq)
  cases hn : nr.id with
  | zero => exact absurd (hn ▸ hi₀) (Nat.not_lt_zero i₀)
  | succ m =>
      rw [hn] at happ
      rw [rootId]
      simp only [rootIdAux, happ, hnrpar]
      rw [rootIdAux_append hfresh hpar m i₀ (Nat.ne_of_lt hi₀),
        rootIdAux_map hidf hparf m i₀]
      exact rootIdAux_fuel hok.lt m i₀ i₀
        (Nat.le_of_lt_succ (by rw [hn] at hi₀; exact hi₀)) (Nat.le_refl _)

/-- A freshly appended parentless row is its own root. -/
theorem rootId_append_newroot {rows : List DBRule} {nr : DBRule}
    (hids : ∀ r ∈ rows, r.id < nr.id) (hnrpar : nr.parent_rule_id = none) :
    rootId (rows ++ [nr]) nr.id = nr.id := by
  have hfindrows : rows.find? (fun r => r.id == nr.id) = none := by
    rw [List.find?_eq_none]
    intro x hx
    simp
    exact Nat.ne_of_lt (hids x hx)
  have happ : (rows ++ [nr]).find? (fun r => r.id == nr.id) = some nr := by
    rw [List.find?_append, hfindrows]
    simp [List.find?]
  cases hn : nr.id with
  | zero => rfl
  | succ m =>
      rw [hn] at happ
      rw [rootId]
      simp [rootIdAux, happ, hnrpar]

/-- Roots of old member ids are unchanged by appending a fresh-id row. -/
theorem rootId_append_old {rows : List DBRule} {nr : DBRule}
    (hok : ParentOk rows) (hids : ∀ r ∈ rows, r.id < nr.id)
    (i : Nat) (hi : i ≠ nr.id) :
    rootId (rows ++ [nr]) i = rootId rows i := by
  have hfresh : ∀ r ∈ rows, r.id ≠ nr.id :=
    fun r hr => Nat.ne_of_lt (hids r hr)
  have hpar : ∀ r ∈ rows, ∀ p, r.parent_rule_id = some p → p ≠ nr.id := by
    intro r hr p hp
    obtain ⟨_, q, hq, hqid⟩ := hok r hr p hp
    rw [← hqid]
    exact Nat.ne_of_lt (hids q hq)
  rw [rootId, rootId, rootIdAux_append hfresh hpar i i hi]


/-- `deactById` preserves ids. -/
theorem deactById_id (i : Nat) (r : DBRule) : (deactById i r).id = r.id := by
  unfold deactById
  split <;> rfl

/-- `deactById` preserves parent links. -/
theorem deactById_parent (i : Nat) (r : DBRule) :
    (deactById i r).parent_rule_id = r.parent_rule_id := by
  unfold deactById
  split <;> rfl

/-- `deactById` preserves versions. -/
theorem deactById_version (i : Nat) (r : DBRule) :
    (deactById i r).version = r.version := by
  unfold deactById
  split <;> rfl

/-- `deactById` acts as identity away from its target. -/
theorem deactById_eq_of_ne {i : Nat} {r : DBRule} (h : ¬ r.id = i) :
    deactById i r = r := by
  unfold deactById
  rw [if_neg (by simpa using h)]

/-- A row still active after `deactById` was active and is not the target. -/
theorem deactById_active {i : Nat} {r : DBRule}
    (h : (deactById i r).is_active = true) :
    r.is_active = true ∧ ¬ r.id = i := by
  unfold deactById at h
  by_cases hri : (r.id == i) = true
  · rw [if_pos hri] at h
    exact absurd h (by simp)
  · rw [if_neg hri] at h
    exact ⟨h, by simpa using hri⟩

/-- Members of a table with unique ids are determined by their id. -/
theorem mem_id_inj {rows : List DBRule}
    (hnd : (rows.map (fun r => r.id)).Nodup)
    {u v : DBRule} (hu : u ∈ rows) (hv : v ∈ rows) (hid : u.id = v.id) :
    u = v :=
  List.inj_on_of_nodup_map hnd hu hv hid

/-- Inserting a fresh, active, parentless row (what `create_rule` does)
preserves the full store invariant: the new row founds its own chain and no
old chain gains or loses an active member. -/
theorem StoreInv.insertFresh {st : RuleStore} (hinv : StoreInv st)
    {nr : DBRule} (hnrid : nr.id = st.nextId) (hnrpar : nr.parent_rule_id = none)
    (hnract : nr.is_active = true) :
    StoreInv ⟨st.rows ++ [nr], st.nextId + 1, st.clock + 1⟩ := by
  obtain ⟨⟨hidlt, hnd, hok⟩, hvl, hone⟩ := hinv
  have hids : ∀ r ∈ st.rows, r.id < nr.id := fun r hr => hnrid ▸ hidlt r hr
  refine ⟨⟨?_, ?_, ?_⟩, ?_, ?_⟩
  · intro r hr
    rcases List.mem_append.mp hr with h | h
    · exact Nat.lt_succ_of_lt (hidlt r h)
    · rw [List.mem_singleton.mp h, hnrid]
      exact Nat.lt_succ_self _
  · rw [List.map_append]
    rw [List.nodup_append]
    refine ⟨hnd, List.nodup_singleton _, ?_⟩
    intro a ha hb
    simp only [List.map_cons, List.map_nil, List.mem_singleton] at hb
    obtain ⟨r, hr, hrid⟩ := List.mem_map.mp ha
    rw [hb, hnrid] at hrid
    exact absurd (hrid ▸ hidlt r hr) (Nat.lt_irrefl _)
  · intro r hr p hp
    rcases List.mem_append.mp hr with h | h
    · obtain ⟨hlt, q, hq, hqid⟩ := hok r h p hp
      exact ⟨hlt, q, List.mem_append_left _ hq, hqid⟩
    · rw [List.mem_singleton.mp h, hnrpar] at hp
      cases hp
  · intro r hr p hp q hq hqid
    rcases List.mem_append.mp hr with h | h
    · rcases List.mem_append.mp hq with h' | h'
      · exact hvl r h p hp q h' hqid
      · obtain ⟨hlt, q₀, hq₀, hq₀id⟩ := hok r h p hp
        rw [List.mem_singleton.mp h', hnrid] at hqid
        rw [← hqid] at hlt
        exact absurd (Nat.lt_trans hlt (hnrid ▸ hids r h)) (by simp [hnrid])
    · rw [List.mem_singleton.mp h, hnrpar] at hp
      cases hp
  · intro root hroot hrpar
    rcases List.mem_append.mp hroot with hrootmem | hrootnr
    · obtain ⟨u, ⟨humem, huact, huroot⟩, huniq⟩ := hone root hrootmem hrpar
      refine ⟨u, ⟨List.mem_append_left _ humem, huact, ?_⟩, ?_⟩
      · rw [rootId_append_old hok hids u.id (Nat.ne_of_lt (hids u humem))]
        exact huroot
      · rintro s ⟨hsmem, hsact, hsroot⟩
        rcases List.mem_append.mp hsmem with hs | hs
        · refine huniq s ⟨hs, hsact, ?_⟩
          rw [← rootId_append_old hok hids s.id (Nat.ne_of_lt (hids s hs))]
          exact hsroot
        · rw [List.mem_singleton.mp hs] at hsroot ⊢
          rw [rootId_append_newroot hids hnrpar] at hsroot
          exact absurd hsroot.symm (Nat.ne_of_lt (hids root hrootmem))
    · rw [List.mem_singleton.mp hrootnr]
      refine ⟨nr, ⟨List.mem_append_right _ (List.mem_singleton.mpr rfl), hnract,
        rootId_append_newroot hids hnrpar⟩, ?_⟩
      rintro s ⟨hsmem, hsact, hsroot⟩
      rcases List.mem_append.mp hsmem with hs | hs
      · rw [rootId_append_old hok hids s.id (Nat.ne_of_lt (hids s hs))] at hsroot
        obtain ⟨rt, hrt, hrtid, _⟩ := rootId_root_mem hok hs
        rw [← hrtid] at hsroot
        exact absurd hsroot (Nat.ne_of_lt (hids rt hrt))
      · exact List.mem_singleton.mp hs

/-- C4 helper: `create_rule` preserves the store invariant in every branch. -/
theorem createRule_preserves (st : RuleStore) (t sv : String) (cb : Nat)
    (sim : List Nat) (hinv : StoreInv st) :
    StoreInv (createRule st t sv cb sim).2 := by
  unfold createRule
  by_cases h1 : strStrip t = ""
  · rw [if_pos h1]
    exact hinv
  rw [if_neg h1]
  by_cases h2 : st.rows.any (fun r => r.rule_text == t && r.is_active) = true
  · rw [if_pos h2]
    exact hinv
  rw [if_neg h2]
  by_cases h3 : (!sim.isEmpty) = true
  · rw [if_pos h3]
    exact hinv
  rw [if_neg h3]
  exact hinv.insertFresh rfl rfl rfl


/-- Revising the active rule of a chain (what `update_rule` does when its
target is still active) preserves the full store invariant: the target's
chain swaps its unique active member from the old row to the new version,
and every other chain is untouched. -/
theorem StoreInv.reviseActive {st : RuleStore} (hinv : StoreInv st)
    {old : DBRule} {i : Nat} (hold : old ∈ st.rows) (holdid : old.id = i)
    (holdact : old.is_active = true)
    {nr : DBRule} (hnrid : nr.id = st.nextId) (hnrpar : nr.parent_rule_id = some i)
    (hnract : nr.is_active = true) (hnrver : nr.version = old.version + 1) :
    StoreInv ⟨st.rows.map (deactById i) ++ [nr], st.nextId + 1, st.clock + 1⟩ := by
  obtain ⟨⟨hidlt, hnd, hok⟩, hvl, hone⟩ := hinv
  have hids : ∀ r ∈ st.rows, r.id < nr.id := fun r hr => hnrid ▸ hidlt r hr
  have hilt : i < nr.id := holdid ▸ hids old hold
  obtain ⟨root₀, hroot₀mem, hroot₀id, hroot₀par⟩ := rootId_root_mem hok hold
  obtain ⟨u, ⟨humem, huact, huroot⟩, huniq⟩ := hone root₀ hroot₀mem hroot₀par
  have holdu : old = u := huniq old ⟨hold, holdact, hroot₀id.symm⟩
  have hrootold : ∀ j, j ≠ nr.id →
      rootId (st.rows.map (deactById i) ++ [nr]) j = rootId st.rows j :=
    fun j hj =>
      rootId_update_old (deactById_id i) (deactById_parent i) hok hids j hj
  have hrootnew :
      rootId (st.rows.map (deactById i) ++ [nr]) nr.id = rootId st.rows i :=
    rootId_update_new (deactById_id i) (deactById_parent i) hok hids hnrpar hilt
  refine ⟨⟨?_, ?_, ?_⟩, ?_, ?_⟩
  · intro r hr
    rcases List.mem_append.mp hr with h | h
    · obtain ⟨r₀, hr₀, rfl⟩ := List.mem_map.mp h
      rw [deactById_id]
      exact Nat.lt_succ_of_lt (hidlt r₀ hr₀)
    · rw [List.mem_singleton.mp h, hnrid]
      exact Nat.lt_succ_self _
  · rw [List.map_append]
    have hmm : (st.rows.map (deactById i)).map (fun r => r.id)
        = st.rows.map (fun r => r.id) := by
      rw [List.map_map]
      have hfun : ((fun r : DBRule => r.id) ∘ deactById i)
          = (fun r : DBRule => r.id) := by
        funext r
        exact deactById_id i r
      rw [hfun]
    rw [hmm, List.nodup_append]
    refine ⟨hnd, List.nodup_singleton _, ?_⟩
    intro a ha hb
    simp only [List.map_cons, List.map_nil, List.mem_singleton] at hb
    obtain ⟨r, hr, hrid⟩ := List.mem_map.mp ha
    rw [hb, hnrid] at hrid
    exact absurd (hrid ▸ hidlt r hr) (Nat.lt_irrefl _)
  · intro r hr p hp
    rcases List.mem_append.mp hr with h | h
    · obtain ⟨r₀, hr₀, rfl⟩ := List.mem_map.mp h
      rw [deactById_parent] at hp
      obtain ⟨hlt, q, hq, hqid⟩ := hok r₀ hr₀ p hp
      refine ⟨by rw [deactById_id]; exact hlt, deactById i q,
        List.mem_append_left _ (List.mem_map_of_mem _ hq),
        by rw [deactById_id]; exact hqid⟩
    · rw [List.mem_singleton.mp h] at hp ⊢
      rw [hnrpar] at hp
      injection hp with hp'
      subst hp'
      exact ⟨hilt, deactById i old,
        List.mem_append_left _ (List.mem_map_of_mem _ hold),
        by rw [deactById_id]; exact holdid⟩
  · intro r hr p hp q hq hqid
    rcases List.mem_append.mp hr with h | h
    · obtain ⟨r₀, hr₀, rfl⟩ := List.mem_map.mp h
      rw [deactById_parent] at hp
      rcases List.mem_append.mp hq with h' | h'
      · obtain ⟨q₀, hq₀, rfl⟩ := List.mem_map.mp h'
        rw [deactById_id] at hqid
        rw [deactById_version, deactById_version]
        exact hvl r₀ hr₀ p hp q₀ hq₀ hqid
      · obtain ⟨hlt, _, _, _⟩ := hok r₀ hr₀ p hp
        rw [List.mem_singleton.mp h', hnrid] at hqid
        have hplt : p < st.nextId := Nat.lt_trans hlt (hidlt r₀ hr₀)
        rw [hqid] at hplt
        exact absurd hplt (Nat.lt_irrefl _)
    · rw [List.mem_singleton.mp h] at hp ⊢
      rw [hnrpar] at hp
      injection hp with hp'
      subst hp'
      rcases List.mem_append.mp hq with h' | h'
      · obtain ⟨q₀, hq₀, rfl⟩ := List.mem_map.mp h'
        rw [deactById_id] at hqid
        have hq₀old : q₀ = old := mem_id_inj hnd hq₀ hold (by rw [hqid, holdid])
        subst hq₀old
        rw [deactById_version, hnrver]
        exact Nat.lt_succ_self _
      · rw [List.mem_singleton.mp h'] at hqid
        exact absurd hqid (Nat.ne_of_gt hilt)
  · intro root hroot hrpar
    rcases List.mem_append.mp hroot with hrm | hrn
    swap
    · rw [List.mem_singleton.mp hrn, hnrpar] at hrpar
      cases hrpar
    obtain ⟨t, htmem, rfl⟩ := List.mem_map.mp hrm
    have htpar : t.parent_rule_id = none := by
      rw [← deactById_parent i t]
      exact hrpar
    have hrootid : (deactById i t).id = t.id := deactById_id i t
    by_cases htR : t.id = rootId st.rows old.id
    · refine ⟨nr, ⟨List.mem_append_right _ (List.mem_singleton.mpr rfl),
        hnract, ?_⟩, ?_⟩
      · rw [hrootnew, hrootid, ← holdid]
        exact htR.symm
      · rintro s ⟨hsmem, hsact, hsroot⟩
        rcases List.mem_append.mp hsmem with hs | hs
        swap
        · exact List.mem_singleton.mp hs
        obtain ⟨w, hw, rfl⟩ := List.mem_map.mp hs
        obtain ⟨hwact, hwne⟩ := deactById_active hsact
        have hweq : deactById i w = w := deactById_eq_of_ne hwne
        rw [hweq] at hsroot ⊢
        rw [hrootold w.id (Nat.ne_of_lt (hids w hw)), hrootid] at hsroot
        have hwu : w = u := huniq w ⟨hw, hwact, by rw [hsroot, htR]; exact hroot₀id.symm⟩
        rw [← holdu] at hwu
        exact absurd (by rw [hwu, holdid]) hwne
    · obtain ⟨v, ⟨hvmem, hvact, hvroot⟩, hvuniq⟩ := hone t htmem htpar
      have hvne : ¬ v.id = i := by
        intro hvi
        have hveqold : v = old := mem_id_inj hnd hvmem hold (by rw [hvi, holdid])
        rw [hveqold] at hvroot
        exact htR hvroot.symm
      have hveq : deactById i v = v := deactById_eq_of_ne hvne
      refine ⟨v, ⟨?_, hvact, ?_⟩, ?_⟩
      · rw [← hveq]
        exact List.mem_append_left _ (List.mem_map_of_mem _ hvmem)
      · rw [hrootold v.id (Nat.ne_of_lt (hids v hvmem)), hrootid]
        exact hvroot
      · rintro s ⟨hsmem, hsact, hsroot⟩
        rcases List.mem_append.mp hsmem with hs | hs
        · obtain ⟨w, hw, rfl⟩ := List.mem_map.mp hs
          obtain ⟨hwact, hwne⟩ := deactById_active hsact
          have hweq : deactById i w = w := deactById_eq_of_ne hwne
          rw [hweq] at hsroot ⊢
          rw [hrootold w.id (Nat.ne_of_lt (hids w hw)), hrootid] at hsroot
          exact hvuniq w ⟨hw, hwact, hsroot⟩
        · rw [List.mem_singleton.mp hs] at hsroot ⊢
          rw [hrootnew, hrootid, ← holdid] at hsroot
          exact absurd hsroot.symm htR

/-- C4 helper: `update_rule` preserves the store invariant whenever its
target (if present) is still active. -/
theorem updateRule_preserves (st : RuleStore) (i : Nat) (tx : String) (uid : Nat)
    (hinv : StoreInv st)
    (hactive : ∀ r ∈ st.rows, r.id = i → r.is_active = true) :
    StoreInv (updateRule st i tx uid).2 := by
  unfold updateRule
  by_cases h1 : strStrip tx = ""
  · rw [if_pos h1]
    exact hinv
  rw [if_neg h1]
  cases hf : st.rows.find? (fun r => r.id == i) with
  | none =>
      simp only [hf]
      exact hinv
  | some old =>
      simp only [hf]
      have hold : old ∈ st.rows := List.mem_of_find?_eq_some hf
      have holdid : old.id = i := by
        have := List.find?_some hf
        simpa using this
      exact hinv.reviseActive hold holdid (hactive old hold holdid) rfl rfl rfl rfl


/-- Any single chain-safe operation preserves the store invariant. -/
theorem applyOp_preserves (st : RuleStore) (op : StoreOp)
    (hinv : StoreInv st) (hok : opOk st op) : StoreInv (applyOp st op) := by
  cases op with
  | create t sv cb sim => exact createRule_preserves st t sv cb sim hinv
  | revise i tx u => exact updateRule_preserves st i tx u hinv hok

/-- C4 amended: across any sequence of create and revise operations in
which every revise targets a rule that is still active, a store satisfying
the invariant (exactly one active rule per version chain, versions strictly
increasing along parent links, well-formed ids) keeps satisfying it.  The
unrestricted claim is false: deactivate empties a chain of active rules and
revise of an inactive rule duplicates actives (see the counterexample). -/
theorem chainInvariant_goodOps (st : RuleStore) (ops : List StoreOp)
    (hinv : StoreInv st) (hops : GoodOps st ops) :
    StoreInv (applyOps st ops) := by
  induction ops generalizing st with
  | nil => exact hinv
  | cons op rest ih =>
      obtain ⟨h1, h2⟩ := hops
      exact ih (applyOp st op) (applyOp_preserves st op hinv h1) h2

/-- Witness for the amended C4: from the empty store, create one rule and
then revise it while it is active; the invariant holds at the end. -/
theorem chainInvariant_goodOps_witness :
    StoreInv ⟨[], 1, 0⟩
    ∧ GoodOps ⟨[], 1, 0⟩
        [StoreOp.create "Spam is prohibited" "hard" 1 [],
         StoreOp.revise 1 "Spam and scams are prohibited" 1]
    ∧ StoreInv (applyOps ⟨[], 1, 0⟩
        [StoreOp.create "Spam is prohibited" "hard" 1 [],
         StoreOp.revise 1 "Spam and scams are prohibited" 1]) := by
  have hinv : StoreInv ⟨[], 1, 0⟩ := by
    refine ⟨⟨?_, ?_, ?_⟩, ?_, ?_⟩
    · intro r hr
      exact absurd hr (List.not_mem_nil r)
    · simp
    · intro r hr
      exact absurd hr (List.not_mem_nil r)
    · intro r hr
      exact absurd hr (List.not_mem_nil r)
    · intro root hroot
      exact absurd hroot (List.not_mem_nil root)
  have hops : GoodOps ⟨[], 1, 0⟩
      [StoreOp.create "Spam is prohibited" "hard" 1 [],
       StoreOp.revise 1 "Spam and scams are prohibited" 1] :=
    ⟨trivial, by
      show ∀ r ∈ (applyOp ⟨[], 1, 0⟩
          (StoreOp.create "Spam is prohibited" "hard" 1 [])).rows,
        r.id = 1 → r.is_active = true
      decide, trivial⟩
  exact ⟨hinv, hops, chainInvariant_goodOps _ _ hinv hops⟩

/-- A one-rule store used to exhibit the failure of the unrestricted chain
invariant. -/
def exStore0 : RuleStore :=
  ⟨[⟨1, "Short selling is prohibited", RuleSeverity.hard, true, 1, none, 1, 0⟩], 2, 1⟩

/-- The store after revising rule 1 twice: the second revise targets the
already-inactive original row. -/
def exStore2 : RuleStore :=
  (updateRule (updateRule exStore0 1 "Short selling is prohibited v2" 1).2
    1 "Short selling is prohibited v3" 1).2

/-- C4 counterexample: starting from a store satisfying the invariant,
revising rule 1 and then revising rule 1 again (now inactive) leaves two
active rules in the chain rooted at rule 1 — and deactivating rule 1 in the
original store leaves its chain with no active rule.  So neither revise of
an inactive rule nor deactivate preserves "exactly one active per chain". -/
theorem chainInvariant_counterexample :
    StoreInv exStore0
    ∧ ¬ OneActivePerChain exStore2.rows
    ∧ ¬ OneActivePerChain ((deactivateRule exStore0 1).2).rows := by
  refine ⟨?_, ?_, ?_⟩
  · refine ⟨⟨by decide, by decide, ?_⟩, ?_, ?_⟩
    · intro r hr p hp
      have hr' : r = ⟨1, "Short selling is prohibited", RuleSeverity.hard,
          true, 1, none, 1, 0⟩ := List.mem_singleton.mp hr
      rw [hr'] at hp
      exact Option.noConfusion hp
    · intro r hr p hp
      have hr' : r = ⟨1, "Short selling is prohibited", RuleSeverity.hard,
          true, 1, none, 1, 0⟩ := List.mem_singleton.mp hr
      rw [hr'] at hp
      exact Option.noConfusion hp
    · intro root hroot hrpar
      have hroot' : root = ⟨1, "Short selling is prohibited", RuleSeverity.hard,
          true, 1, none, 1, 0⟩ := List.mem_singleton.mp hroot
      subst hroot'
      refine ⟨⟨1, "Short selling is prohibited", RuleSeverity.hard,
          true, 1, none, 1, 0⟩, ⟨List.mem_singleton.mpr rfl, rfl, rfl⟩, ?_⟩
      rintro s ⟨hsmem, _, _⟩
      exact List.mem_singleton.mp hsmem
  · intro h
    have hroot : (⟨1, "Short selling is prohibited", RuleSeverity.hard,
        false, 1, none, 1, 0⟩ : DBRule) ∈ exStore2.rows := by decide
    obtain ⟨s, _, huniq⟩ := h _ hroot rfl
    have h2 := huniq ⟨2, "Short selling is prohibited v2", RuleSeverity.hard,
        true, 2, some 1, 1, 1⟩ ⟨by decide, rfl, by decide⟩
    have h3 := huniq ⟨3, "Short selling is prohibited v3", RuleSeverity.hard,
        true, 2, some 1, 1, 2⟩ ⟨by decide, rfl, by decide⟩
    exact absurd (h2.trans h3.symm) (by decide)
  · intro h
    have hroot : (⟨1, "Short selling is prohibited", RuleSeverity.hard,
        false, 1, none, 1, 0⟩ : DBRule) ∈ ((deactivateRule exStore0 1).2).rows := by
      decide
    obtain ⟨s, ⟨hsmem, hsact, _⟩, _⟩ := h _ hroot rfl
    have hsmem' : s ∈ [(⟨1, "Short selling is prohibited", RuleSeverity.hard,
        false, 1, none, 1, 0⟩ : DBRule)] := hsmem
    rw [List.mem_singleton.mp hsmem'] at hsact
    exact absurd hsact (by decide)


end CompliancePOC
